import Mathlib

/-!
Shallow embedding of `src/baseline.hpp` (time-series indexing baseline store)
and verification of its specified properties.

Modelling conventions:
* `time_point` (hour-granularity wall-clock instants) is embedded as `Int`.
  `string_to_time_point` maps a well-formed `YYYYMMDD-HH` stamp to the
  injective, field-lexicographic encoding `((y*100+mo)*100+d)*100+h`, which is
  order-isomorphic to chronological order on well-formed stamps.
* `size_t` arithmetic from the C++ source (`npos`, `n1+1`, `n2-n1-1`) is
  embedded exactly, as `Nat` arithmetic modulo `2^64`.
* C++ exceptions are embedded as `Except` / explicit error components.
* File I/O is abstracted away: `build_index` receives the list of lines that
  `std::getline` would produce, and the cereal binary archive is embedded as a
  token list (length prefix followed by the fields of each record in order),
  matching the archive layout cereal produces for `vector<record>`.
-/

namespace Baseline

/-- Width of the C++ `size_t` type used by `std::string` positions. -/
def W : Nat := 2 ^ 64

/-- Models `std::string::npos` (`size_t(-1)`). -/
def npos : Nat := W - 1

/-- Wrapping `size_t` addition, as performed on `std::string` positions. -/
def add64 (a b : Nat) : Nat := (a + b) % W

/-- Wrapping `size_t` subtraction, as performed on `std::string` positions. -/
def sub64 (a b : Nat) : Nat := (a + W - b % W) % W

/-- Error kinds thrown by the C++ source:
`parseError` for `std::invalid_argument` from `record::string_to_time_point`
and `std::stoi`, `outOfRange` for `std::out_of_range` from `std::stoi` /
`std::string::substr`, `invalidInterval` for the `std::invalid_argument`
thrown by `baseline_db::range` on a malformed interval, and `ioError` for
`std::ios_base::failure`. -/
inductive Err where
  | parseError
  | outOfRange
  | invalidInterval
  | ioError
deriving DecidableEq, Repr

/-- Embeds the C++ `record` class: `time_point time; string page; size_t counter`. -/
structure record where
  time : Int
  page : String
  counter : Nat
deriving DecidableEq, Repr

/-- Models the default constructor `record()` (epoch time, empty page, zero counter). -/
instance : Inhabited record := ⟨⟨0, "", 0⟩⟩

/-- Strict comparison of characters by code point, the behavior of `char`
comparison inside `std::string::operator<` on the ASCII inputs at hand. -/
def charLtb (a b : Char) : Bool := a.toNat < b.toNat

/-- Embeds `std::string::operator<`: lexicographical comparison,
character by character. -/
def strLtb : List Char → List Char → Bool
  | [], [] => false
  | [], _ :: _ => true
  | _ :: _, [] => false
  | x :: xs, y :: ys =>
    if charLtb x y then true else if charLtb y x then false else strLtb xs ys

/-- Embeds `record::operator<`: `std::tie(page, time) < std::tie(x.page, x.time)`,
i.e. lexicographic comparison by page then time. -/
def record.lt (a x : record) : Prop :=
  strLtb a.page.data x.page.data = true ∨
    (¬ strLtb x.page.data a.page.data = true ∧ a.time < x.time)

instance (a x : record) : Decidable (record.lt a x) :=
  inferInstanceAs (Decidable (_ ∨ _))

/-- Non-strict version of the record order: `¬ x < a`, the sortedness
criterion of `std::sort` with comparator `record::operator<`. -/
def recordLe (a x : record) : Prop := ¬ record.lt x a

instance : DecidableRel recordLe := fun a x =>
  inferInstanceAs (Decidable (¬ record.lt x a))

/-- Embeds `record::compare_page`: comparison purely by page identifier. -/
def record.compare_page (r1 r2 : record) : Prop :=
  strLtb r1.page.data r2.page.data = true

instance (r1 r2 : record) : Decidable (record.compare_page r1 r2) :=
  inferInstanceAs (Decidable (strLtb r1.page.data r2.page.data = true))

/-- Numeric value of a digit string, most significant digit first. -/
def digitsVal (s : List Char) : Nat :=
  s.foldl (fun a c => a * 10 + (c.toNat - '0'.toNat)) 0

/-- Reads exactly `k` digits from the front of `s`, returning their value and
the rest of the input. -/
def readDigits (s : List Char) (k : Nat) : Option (Nat × List Char) :=
  if (s.take k).length = k && (s.take k).all Char.isDigit then
    some (digitsVal (s.take k), s.drop k)
  else none

/-- Models the C++ standard library's `std::get_time` with the format
`"%Y%m%d-%H"` followed by `std::mktime`, the only format ever passed by the
source: a stamp `YYYYMMDD-HH` (4+2+2 digits, a literal dash, 2 digits) is
mapped to the injective encoding `((y*100+mo)*100+d)*100+h`; anything else
sets `failbit`. -/
def get_time_YmdH (s : List Char) : Option Nat := do
  let (y, s1) ← readDigits s 4
  let (mo, s2) ← readDigits s1 2
  let (d, s3) ← readDigits s2 2
  match s3 with
  | '-' :: s4 =>
    let (h, s5) ← readDigits s4 2
    if s5 = [] then some (((y * 100 + mo) * 100 + d) * 100 + h) else none
  | _ => none

/-- Embeds `record::string_to_time_point`. Every call site in the source uses
the default format `"%Y%m%d-%H"`, so the format parameter is fixed to it.
Throws `std::invalid_argument` (a `ParseError`) when the stream fails. -/
def string_to_time_point (source : String) : Except Err Int :=
  match get_time_YmdH source.data with
  | some t => .ok (t : Int)
  | none => .error .parseError

/-- Characters treated as whitespace by `std::isspace` in the default locale,
skipped by `std::stoi` before the number. -/
def cppIsSpace (c : Char) : Bool :=
  c = ' ' || c = '\t' || c = '\n' || c = '\x0b' || c = '\x0c' || c = '\r'

/-- Models the C++ standard library's `std::stoi` (base 10): skip whitespace,
read an optional sign and a non-empty run of digits (trailing characters are
ignored), throw `std::invalid_argument` if no digits were read and
`std::out_of_range` if the value does not fit in a 32-bit `int`. -/
def stoi (s : List Char) : Except Err Int :=
  let s1 := s.dropWhile cppIsSpace
  let sr : Int × List Char :=
    match s1 with
    | '-' :: rest => (-1, rest)
    | '+' :: rest => (1, rest)
    | _ => (1, s1)
  let digits := sr.2.takeWhile Char.isDigit
  if digits.isEmpty then .error .parseError
  else
    let v : Int := sr.1 * (digitsVal digits : Int)
    if v < -(2 ^ 31) || (2 ^ 31 - 1 : Int) < v then .error .outOfRange
    else .ok v

/-- Index of the first occurrence of `c` in the list, if any. -/
def strFindAux (c : Char) : List Char → Option Nat
  | [] => none
  | x :: xs => if x = c then some 0 else (strFindAux c xs).map (· + 1)

/-- Embeds `std::string::find(c, start)`: first index `≥ start` holding `c`,
else `npos`; a `start` beyond the length finds nothing. -/
def strFindFrom (s : List Char) (c : Char) (start : Nat) : Nat :=
  match strFindAux c (s.drop start) with
  | some j => start + j
  | none => npos

/-- Embeds `std::string::substr(pos, len)`: throws `std::out_of_range` when
`pos` exceeds the length, else yields at most `len` characters from `pos`. -/
def substr (s : List Char) (pos len : Nat) : Except Err (List Char) :=
  if s.length < pos then .error .outOfRange
  else .ok ((s.drop pos).take len)

/-- Embeds the parsing constructor `record::record(const string&)`:
split at the first two tabs (`size_t` arithmetic as in the source), parse the
timestamp, take the page verbatim, and `std::stoi` the remainder; the `int`
result is converted to `size_t`, i.e. reduced modulo `2^64`. -/
def record_from_line (source_line : String) : Except Err record :=
  let s := source_line.data
  let n1 := strFindFrom s '\t' 0
  let n2 := strFindFrom s '\t' (add64 n1 1)
  match substr s 0 n1 with
  | .error e => .error e
  | .ok tsStr =>
    match string_to_time_point (String.mk tsStr) with
    | .error e => .error e
    | .ok t =>
      match substr s (add64 n1 1) (sub64 (sub64 n2 n1) 1) with
      | .error e => .error e
      | .ok pageStr =>
        match substr s (add64 n2 1) npos with
        | .error e => .error e
        | .ok cntStr =>
          match stoi cntStr with
          | .error e => .error e
          | .ok v =>
            .ok { time := t, page := String.mk pageStr,
                  counter := (v % (W : Int)).toNat }

/-- Executable stand-in for `std::sort(m_db.begin(), m_db.end())` with
`record::operator<`, used to keep the embedded operations computable: one
conforming refinement (insertion sort) of the standard's contract. All the
standard actually promises of `std::sort` is `cppSortPost` below — the
relative order of records equal under the comparator is unspecified — so
every theorem whose truth depends on the order of `(page, time)`-tied
records quantifies over all outputs satisfying `cppSortPost` instead of
appealing to this particular refinement (see C2 and C8). -/
def sortRecords (l : List record) : List record := List.insertionSort recordLe l

/-- Work loop of the generic binary search shared by `std::lower_bound` and
`std::upper_bound` (advance past indices whose predicate holds). The interval
length strictly shrinks at every step, so a fuel of the initial length makes
the recursion structural without changing the computed value. -/
def bsearchFuel (pred : Nat → Bool) : Nat → Nat → Nat → Nat
  | 0, first, _ => first
  | fuel + 1, first, len =>
    if len = 0 then first
    else if pred (first + len / 2) then
      bsearchFuel pred fuel (first + len / 2 + 1) (len - (len / 2 + 1))
    else bsearchFuel pred fuel first (len / 2)

/-- Generic binary search over index interval `[first, first + len)`. -/
def bsearch (pred : Nat → Bool) (first len : Nat) : Nat :=
  bsearchFuel pred len first len

namespace baseline_db

/-- Embeds `baseline_db::range_of`: `std::equal_range` over `m_db` against a
dummy record holding the page, with comparator `record::compare_page`; i.e.
the pair of the `lower_bound` and `upper_bound` positions for the page. -/
def range_of (m_db : List record) (page : String) : Nat × Nat :=
  (bsearch (fun i => decide (record.compare_page (m_db.getD i default)
      { time := 0, page := page, counter := 0 })) 0 m_db.length,
   bsearch (fun i => ! decide (record.compare_page
      { time := 0, page := page, counter := 0 } (m_db.getD i default))) 0 m_db.length)

/-- Embeds `baseline_db::range` (time-point overload): reject `time1 > time2`
with `std::invalid_argument`, else walk the `range_of` window and keep the
records whose time lies in the closed interval. -/
def range (m_db : List record) (page : String) (time1 time2 : Int) :
    Except Err (List record) :=
  if time1 ≤ time2 then
    .ok (((m_db.drop (range_of m_db page).1).take
        ((range_of m_db page).2 - (range_of m_db page).1)).filter
      (fun x => decide (time1 ≤ x.time) && decide (x.time ≤ time2)))
  else .error .invalidInterval

/-- Embeds `baseline_db::top_k_range` (time-point overload): run `range`,
`std::sort` the result, then `pop_back` until at most `k` elements remain
(that is, keep the first `min k _` elements). -/
def top_k_range (m_db : List record) (page : String) (time1 time2 : Int)
    (k : Nat) : Except Err (List record) :=
  match range m_db page time1 time2 with
  | .ok retval => .ok ((sortRecords retval).take k)
  | .error e => .error e

/-- Embeds the string overload of `baseline_db::range`: parse both boundary
strings with `record::string_to_time_point` and delegate. -/
def range_str (m_db : List record) (page time1 time2 : String) :
    Except Err (List record) :=
  match string_to_time_point time1 with
  | .error e => .error e
  | .ok t1 =>
    match string_to_time_point time2 with
    | .error e => .error e
    | .ok t2 => range m_db page t1 t2

/-- Embeds the string overload of `baseline_db::top_k_range`. -/
def top_k_range_str (m_db : List record) (page time1 time2 : String)
    (k : Nat) : Except Err (List record) :=
  match string_to_time_point time1 with
  | .error e => .error e
  | .ok t1 =>
    match string_to_time_point time2 with
    | .error e => .error e
    | .ok t2 => top_k_range m_db page t1 t2 k

/-- Embeds the `while (std::getline(...)) m_db.push_back(record(line))` loop
of `baseline_db::build_index`: parse and append line by line; the first parse
failure aborts, leaving the records pushed so far in the member vector. -/
def build_loop (m_db : List record) : List String → List record × Option Err
  | [] => (m_db, none)
  | line :: rest =>
    match record_from_line line with
    | .ok r => build_loop (m_db ++ [r]) rest
    | .error e => (m_db, some e)

/-- Embeds `baseline_db::build_index` after the file has been opened (the
`is_open` failure path is the file-system side, abstracted away): run the
getline/push_back loop, and on success sort the vector once. On a parse
failure the exception propagates with the partially filled vector kept. -/
def build_index (m_db : List record) (lines : List String) :
    List record × Option Err :=
  match build_loop m_db lines with
  | (db, none) => (sortRecords db, none)
  | (db, some e) => (db, some e)

/-- Tokens of the embedded cereal binary archive: the archive of
`vector<record>` is the element count followed by each record's
`(time, page, counter)` fields in order. -/
inductive Token where
  | nat : Nat → Token
  | int : Int → Token
  | str : String → Token
deriving DecidableEq, Repr

/-- Fields written for one record by `record::serialize`: `ar(time, page, counter)`. -/
def serializeRecord (r : record) : List Token :=
  [.int r.time, .str r.page, .nat r.counter]

/-- Embeds `baseline_db::save_as`: serialize the whole vector (length prefix,
then each record's fields). -/
def save_as (m_db : List record) : List Token :=
  .nat m_db.length :: (m_db.map serializeRecord).flatten

/-- Reads back `n` records from the token stream, returning them and the
remaining tokens; fails on any layout mismatch. -/
def deserializeRecords : Nat → List Token → Option (List record × List Token)
  | 0, ts => some ([], ts)
  | n + 1, Token.int t :: Token.str p :: Token.nat c :: ts =>
    match deserializeRecords n ts with
    | some (rs, rest) => some (⟨t, p, c⟩ :: rs, rest)
    | none => none
  | _ + 1, _ => none

/-- Embeds `baseline_db::load`: deserialize a whole archive into `m_db`,
replacing the previous contents; no sortedness validation is performed. -/
def load (ts : List Token) : Option (List record) :=
  match ts with
  | Token.nat n :: rest =>
    match deserializeRecords n rest with
    | some (rs, _) => some rs
    | none => none
  | _ => none

end baseline_db

/-- Zero-pads the decimal rendering of `n` to width `w`, as `put_time` does
for its numeric conversions. -/
def padNum (w n : Nat) : String :=
  String.mk (List.replicate (w - (toString n).length) '0') ++ toString n

/-- Models `std::put_time(..., "%Y%m%d-%H")` on the embedded time encoding:
the inverse rendering of `get_time_YmdH`. -/
def time_point_to_string (t : Int) : String :=
  let n := t.toNat
  padNum 4 (n / 1000000) ++ padNum 2 (n / 10000 % 100) ++ padNum 2 (n / 100 % 100)
    ++ "-" ++ padNum 2 (n % 100)

/-- Embeds `record::to_string`. -/
def record.to_string (r : record) : String :=
  "time:" ++ time_point_to_string r.time ++ ",page:" ++ r.page ++ ",counter:"
    ++ toString r.counter ++ "."

namespace baseline_db

/-- Embeds `baseline_db::print(i)`: format the `i`-th record. The C++ source
indexes `m_db[i]` with no bounds check; the embedding makes the access
partial, so `none` marks exactly the out-of-bounds (undefined-behavior)
accesses. -/
def print (m_db : List record) (i : Nat) : Option String :=
  match m_db[i]? with
  | some r => some r.to_string
  | none => none

end baseline_db

/-- Sortedness invariant of the store: the vector is non-decreasing under the
`record::operator<` comparison (`std::sort`'s postcondition). -/
def sortedDb (m_db : List record) : Prop := List.Pairwise recordLe m_db

instance (m_db : List record) : Decidable (sortedDb m_db) :=
  inferInstanceAs (Decidable (List.Pairwise recordLe m_db))

/-- Records of a list of lines, as parsed by the build loop, when every line
parses; otherwise the error of the first unparseable line. -/
def parse_lines : List String → Except Err (List record)
  | [] => .ok []
  | l :: ls =>
    match record_from_line l with
    | .ok r =>
      match parse_lines ls with
      | .ok rs => .ok (r :: rs)
      | .error e => .error e
    | .error e => .error e

/-- Sort key of a record: the `(page, time)` pair that `record::operator<`
compares; the `counter` payload does not participate in the order. -/
def record.key (r : record) : String × Int := (r.page, r.time)

/-- The entire contract the C++ standard gives for
`std::sort(first, last, comp)` with comparator `record::operator<`: the
output is a permutation of the input that is sorted with respect to the
comparator. The relative order of elements equivalent under the comparator
(equal `(page, time)`, any counters) is unspecified, so a conforming
implementation may produce any output satisfying this predicate. -/
def cppSortPost (input output : List record) : Prop :=
  output.Perm input ∧ List.Pairwise recordLe output

/-- Non-strict lexicographic order on sort keys. -/
def keyLe (p q : String × Int) : Prop :=
  strLtb p.1.data q.1.data = true ∨ (p.1 = q.1 ∧ p.2 ≤ q.2)

/-! ### Order lemmas for the lexicographic comparisons -/

theorem charLtb_irrefl (a : Char) : charLtb a a = false := by
  simp [charLtb]

theorem charLtb_asymm {a b : Char} (h : charLtb a b = true) : charLtb b a = false := by
  simp [charLtb] at h ⊢
  omega

theorem charLtb_eq {a b : Char} (h1 : charLtb a b = false)
    (h2 : charLtb b a = false) : a = b := by
  simp [charLtb] at h1 h2
  exact Char.eq_of_val_eq (UInt32.ext (le_antisymm h2 h1))

theorem charLtb_trans {a b c : Char} (h1 : charLtb a b = true)
    (h2 : charLtb b c = true) : charLtb a c = true := by
  simp [charLtb] at h1 h2 ⊢
  omega

theorem strLtb_irrefl (s : List Char) : strLtb s s = false := by
  induction s with
  | nil => rfl
  | cons x xs ih => simp [strLtb, charLtb_irrefl, ih]

theorem strLtb_asymm : ∀ {s t : List Char}, strLtb s t = true → strLtb t s = false
  | [], [], h => by simp [strLtb] at h
  | [], _ :: _, _ => by simp [strLtb]
  | _ :: _, [], h => by simp [strLtb] at h
  | x :: xs, y :: ys, h => by
    by_cases hxy : charLtb x y = true
    · simp [strLtb, charLtb_asymm hxy,
        show charLtb y x = false from charLtb_asymm hxy, hxy]
    · by_cases hyx : charLtb y x = true
      · simp [strLtb, hxy, hyx] at h
      · have hx : x = y := charLtb_eq (by simpa using hxy) (by simpa using hyx)
        subst hx
        simp [strLtb, charLtb_irrefl] at h ⊢
        exact strLtb_asymm h

theorem strLtb_eq : ∀ {s t : List Char}, strLtb s t = false →
    strLtb t s = false → s = t
  | [], [], _, _ => rfl
  | [], _ :: _, h, _ => by simp [strLtb] at h
  | _ :: _, [], _, h => by simp [strLtb] at h
  | x :: xs, y :: ys, h1, h2 => by
    by_cases hxy : charLtb x y = true
    · simp [strLtb, hxy] at h1
    · by_cases hyx : charLtb y x = true
      · simp [strLtb, hyx] at h2
      · have hx : x = y := charLtb_eq (by simpa using hxy) (by simpa using hyx)
        subst hx
        simp [strLtb, charLtb_irrefl] at h1 h2
        rw [strLtb_eq h1 h2]

theorem strLtb_trans : ∀ {s t u : List Char}, strLtb s t = true →
    strLtb t u = true → strLtb s u = true
  | [], [], _, h1, _ => by simp [strLtb] at h1
  | [], _ :: _, [], _, h2 => by simp [strLtb] at h2
  | [], _ :: _, _ :: _, _, _ => by simp [strLtb]
  | _ :: _, [], _, h1, _ => by simp [strLtb] at h1
  | _ :: _, _ :: _, [], _, h2 => by simp [strLtb] at h2
  | x :: xs, y :: ys, z :: zs, h1, h2 => by
    by_cases hxy : charLtb x y = true
    · by_cases hyz : charLtb y z = true
      · simp [strLtb, charLtb_trans hxy hyz]
      · by_cases hzy : charLtb z y = true
        · simp [strLtb, hyz, hzy] at h2
        · have : y = z := charLtb_eq (by simpa using hyz) (by simpa using hzy)
          subst this
          simp [strLtb, hxy]
    · by_cases hyx : charLtb y x = true
      · simp [strLtb, hxy, hyx] at h1
      · have : x = y := charLtb_eq (by simpa using hxy) (by simpa using hyx)
        subst this
        simp [strLtb, hxy, hyx] at h1 h2 ⊢
        by_cases hxz : charLtb x z = true
        · simp [hxz]
        · by_cases hzx : charLtb z x = true
          · simp [hzx] at h2
            exact absurd h2 hxz
          · have : x = z := charLtb_eq (by simpa using hxz) (by simpa using hzx)
            subst this
            simp [hxz, charLtb_irrefl] at h2 ⊢
            exact strLtb_trans h1 h2

/-- Characterization of the non-strict record order. -/
theorem recordLe_iff (a x : record) :
    recordLe a x ↔ (strLtb a.page.data x.page.data = true ∨
      (a.page = x.page ∧ a.time ≤ x.time)) := by
  unfold recordLe record.lt
  constructor
  · intro h
    rw [not_or, not_and_or] at h
    obtain ⟨h1, h2⟩ := h
    simp only [Bool.not_eq_true] at h1
    by_cases hax : strLtb a.page.data x.page.data = true
    · exact Or.inl hax
    · refine Or.inr ⟨String.ext (strLtb_eq (by simpa using hax) h1), ?_⟩
      rcases h2 with h2 | h2
      · exact absurd hax (by simpa using h2)
      · omega
  · rintro (h | ⟨h1, h2⟩)
    · rw [not_or, not_and_or]
      exact ⟨by simp [strLtb_asymm h], Or.inl (by simp [h])⟩
    · rw [h1, not_or, not_and_or]
      exact ⟨by simp [strLtb_irrefl], Or.inr (by omega)⟩

theorem recordLe_total (a x : record) : recordLe a x ∨ recordLe x a := by
  rw [recordLe_iff, recordLe_iff]
  by_cases hax : strLtb a.page.data x.page.data = true
  · exact Or.inl (Or.inl hax)
  · by_cases hxa : strLtb x.page.data a.page.data = true
    · exact Or.inr (Or.inl hxa)
    · have hpq : a.page = x.page :=
        String.ext (strLtb_eq (by simpa using hax) (by simpa using hxa))
      rcases le_total a.time x.time with ht | ht
      · exact Or.inl (Or.inr ⟨hpq, ht⟩)
      · exact Or.inr (Or.inr ⟨hpq.symm, ht⟩)

theorem recordLe_trans {a b c : record} (h1 : recordLe a b) (h2 : recordLe b c) :
    recordLe a c := by
  rw [recordLe_iff] at h1 h2 ⊢
  rcases h1 with h1 | ⟨h1p, h1t⟩
  · rcases h2 with h2 | ⟨h2p, h2t⟩
    · exact Or.inl (strLtb_trans h1 h2)
    · exact Or.inl (h2p ▸ h1)
  · rcases h2 with h2 | ⟨h2p, h2t⟩
    · exact Or.inl (h1p ▸ h2)
    · exact Or.inr ⟨h1p.trans h2p, h1t.trans h2t⟩

instance : IsTotal record recordLe := ⟨recordLe_total⟩

instance : IsTrans record recordLe := ⟨fun _ _ _ => recordLe_trans⟩

theorem strLtb_lt_of_le_of_lt {a b c : List Char} (h1 : strLtb b a = false)
    (h2 : strLtb b c = true) : strLtb a c = true := by
  by_cases hab : strLtb a b = true
  · exact strLtb_trans hab h2
  · rw [← strLtb_eq h1 (by simpa using hab)]
    exact h2

theorem strLtb_lt_of_lt_of_le {a b c : List Char} (h1 : strLtb a b = true)
    (h2 : strLtb c b = false) : strLtb a c = true := by
  by_cases hbc : strLtb b c = true
  · exact strLtb_trans h1 hbc
  · rw [← strLtb_eq (by simpa using hbc) h2]
    exact h1

theorem strLtb_le_trans {a b c : List Char} (h1 : strLtb b a = false)
    (h2 : strLtb c b = false) : strLtb c a = false := by
  cases hq : strLtb c a with
  | false => rfl
  | true => exact absurd (strLtb_lt_of_lt_of_le hq h1) (by simp [h2])

/-! ### Binary search correctness -/

/-- What the `std::lower_bound` / `std::upper_bound` loop computes: on a
predicate that is downward closed (true on a prefix of the index range), the
loop returns the boundary position. -/
theorem bsearchFuel_spec (pred : Nat → Bool) (N : Nat)
    (mono : ∀ i j, i ≤ j → j < N → pred j = true → pred i = true) :
    ∀ fuel len first, len ≤ fuel → first + len ≤ N →
      (∀ i, i < first → pred i = true) →
      (∀ i, first + len ≤ i → i < N → pred i = false) →
      first ≤ bsearchFuel pred fuel first len ∧
      bsearchFuel pred fuel first len ≤ first + len ∧
      (∀ i, i < bsearchFuel pred fuel first len → pred i = true) ∧
      (∀ i, bsearchFuel pred fuel first len ≤ i → i < N → pred i = false) := by
  intro fuel
  induction fuel with
  | zero =>
    intro len first hf hN h1 h2
    have hl0 : len = 0 := by omega
    subst hl0
    simp only [bsearchFuel]
    exact ⟨le_refl _, by omega, h1, fun i hi hiN => h2 i (by omega) hiN⟩
  | succ fuel ih =>
    intro len first hf hN h1 h2
    by_cases h0 : len = 0
    · subst h0
      rw [bsearchFuel, if_pos rfl]
      exact ⟨le_refl _, by omega, h1, fun i hi hiN => h2 i (by omega) hiN⟩
    · cases hp : pred (first + len / 2) with
      | true =>
        have h1' : ∀ i, i < first + len / 2 + 1 → pred i = true := by
          intro i hi
          by_cases hif : i < first
          · exact h1 i hif
          · exact mono i (first + len / 2) (by omega) (by omega) hp
        have hrec := ih (len - (len / 2 + 1)) (first + len / 2 + 1) (by omega)
          (by omega) h1' (fun i hi hiN => h2 i (by omega) hiN)
        obtain ⟨ha, hb, hc, hd⟩ := hrec
        simp only [bsearchFuel, if_neg h0, hp, if_true]
        exact ⟨by omega, by omega, hc, hd⟩
      | false =>
        have h2' : ∀ i, first + len / 2 ≤ i → i < N → pred i = false := by
          intro i hi hiN
          cases hq : pred i with
          | false => rfl
          | true => exact absurd (mono (first + len / 2) i hi hiN hq) (by simp [hp])
        have hrec := ih (len / 2) first (by omega) (by omega) h1 h2'
        obtain ⟨ha, hb, hc, hd⟩ := hrec
        simp only [bsearchFuel, if_neg h0, hp, Bool.false_eq_true, if_false]
        exact ⟨ha, by omega, hc, hd⟩

/-! ### The `equal_range` window -/

/-- In a store sorted by `(page, time)`, pages are non-decreasing. -/
theorem sorted_page_mono (m_db : List record) (hs : sortedDb m_db) :
    ∀ i j (hi : i < m_db.length) (hj : j < m_db.length), i ≤ j →
      strLtb m_db[j].page.data m_db[i].page.data = false := by
  intro i j hi hj hij
  rcases Nat.lt_or_ge i j with h | h
  · have hp := (List.pairwise_iff_getElem.mp hs) i j hi hj h
    rw [recordLe_iff] at hp
    rcases hp with hp | ⟨hp, _⟩
    · exact strLtb_asymm hp
    · rw [hp]
      exact strLtb_irrefl _
  · have hij' : i = j := by omega
    subst hij'
    exact strLtb_irrefl _

/-- Specification of `baseline_db::range_of` on a sorted store: the two
binary searches delimit exactly the contiguous block of records whose page
equals the queried page. -/
theorem range_of_spec (m_db : List record) (P : String) (hs : sortedDb m_db) :
    (baseline_db.range_of m_db P).1 ≤ (baseline_db.range_of m_db P).2 ∧
    (baseline_db.range_of m_db P).2 ≤ m_db.length ∧
    (∀ i (hi : i < m_db.length), i < (baseline_db.range_of m_db P).1 →
      strLtb m_db[i].page.data P.data = true) ∧
    (∀ i (hi : i < m_db.length), (baseline_db.range_of m_db P).1 ≤ i →
      i < (baseline_db.range_of m_db P).2 → m_db[i].page = P) ∧
    (∀ i (hi : i < m_db.length), (baseline_db.range_of m_db P).2 ≤ i →
      strLtb P.data m_db[i].page.data = true) := by
  have hmono := sorted_page_mono m_db hs
  have hL := bsearchFuel_spec
    (fun i => decide (record.compare_page (m_db.getD i default)
      { time := 0, page := P, counter := 0 }))
    m_db.length
    (by
      intro i j hij hj hpj
      simp only [decide_eq_true_iff, record.compare_page] at hpj ⊢
      rw [List.getD_eq_getElem m_db default hj] at hpj
      rw [List.getD_eq_getElem m_db default (by omega : i < m_db.length)]
      exact strLtb_lt_of_le_of_lt (hmono i j (by omega) hj hij) hpj)
    m_db.length m_db.length 0 (le_refl _) (by omega)
    (fun i hi => absurd hi (Nat.not_lt_zero i))
    (fun i hi hiN => absurd hiN (by omega))
  have hU := bsearchFuel_spec
    (fun i => ! decide (record.compare_page
      { time := 0, page := P, counter := 0 } (m_db.getD i default)))
    m_db.length
    (by
      intro i j hij hj hpj
      simp only [Bool.not_eq_true', decide_eq_false_iff_not, record.compare_page] at hpj ⊢
      rw [List.getD_eq_getElem m_db default hj] at hpj
      rw [List.getD_eq_getElem m_db default (by omega : i < m_db.length)]
      intro hc
      exact hpj (strLtb_lt_of_lt_of_le hc (hmono i j (by omega) hj hij)))
    m_db.length m_db.length 0 (le_refl _) (by omega)
    (fun i hi => absurd hi (Nat.not_lt_zero i))
    (fun i hi hiN => absurd hiN (by omega))
  obtain ⟨hL0, hLn, hLlt, hLge⟩ := hL
  obtain ⟨hU0, hUn, hUlt, hUge⟩ := hU
  simp only [baseline_db.range_of, bsearch]
  have hlow : ∀ i (hi : i < m_db.length),
      i < bsearchFuel (fun i => decide (record.compare_page (m_db.getD i default)
        { time := 0, page := P, counter := 0 })) m_db.length 0 m_db.length →
      strLtb m_db[i].page.data P.data = true := by
    intro i hi hilt
    have := hLlt i hilt
    simp only [decide_eq_true_iff, record.compare_page] at this
    rwa [List.getD_eq_getElem m_db default hi] at this
  have hhigh : ∀ i (hi : i < m_db.length),
      bsearchFuel (fun i => ! decide (record.compare_page
        { time := 0, page := P, counter := 0 } (m_db.getD i default)))
        m_db.length 0 m_db.length ≤ i →
      strLtb P.data m_db[i].page.data = true := by
    intro i hi hige
    have := hUge i hige hi
    simp only [Bool.not_eq_false', decide_eq_true_iff, record.compare_page] at this
    rwa [List.getD_eq_getElem m_db default hi] at this
  have hmid1 : ∀ i (hi : i < m_db.length),
      bsearchFuel (fun i => decide (record.compare_page (m_db.getD i default)
        { time := 0, page := P, counter := 0 })) m_db.length 0 m_db.length ≤ i →
      strLtb m_db[i].page.data P.data = false := by
    intro i hi hige
    have := hLge i hige hi
    simp only [decide_eq_false_iff_not, record.compare_page] at this
    rw [List.getD_eq_getElem m_db default hi] at this
    simpa using this
  have hmid2 : ∀ i (hi : i < m_db.length),
      i < bsearchFuel (fun i => ! decide (record.compare_page
        { time := 0, page := P, counter := 0 } (m_db.getD i default)))
        m_db.length 0 m_db.length →
      strLtb P.data m_db[i].page.data = false := by
    intro i hi hilt
    have := hUlt i hilt
    simp only [Bool.not_eq_true', decide_eq_false_iff_not, record.compare_page] at this
    rw [List.getD_eq_getElem m_db default hi] at this
    simpa using this
  refine ⟨?_, by omega, hlow, ?_, hhigh⟩
  · by_contra hcon
    push_neg at hcon
    have hub_lt : bsearchFuel (fun i => ! decide (record.compare_page
        { time := 0, page := P, counter := 0 } (m_db.getD i default)))
        m_db.length 0 m_db.length < m_db.length := by omega
    have h1 := hlow _ hub_lt (by omega)
    have h2 := hhigh _ hub_lt (le_refl _)
    exact absurd (strLtb_trans h2 h1) (by simp [strLtb_irrefl])
  · intro i hi hge hlt
    have h1 := hmid1 i hi hge
    have h2 := hmid2 i hi hlt
    exact (String.ext (strLtb_eq h2 h1)).symm

/-! ### Range query correctness -/

/-- Core correctness of `baseline_db::range` on a sorted store: the window
walk computes exactly the filter of the whole store by page and time bounds. -/
theorem range_eq_filter (m_db : List record) (P : String) (t1 t2 : Int)
    (hs : sortedDb m_db) (h12 : t1 ≤ t2) :
    baseline_db.range m_db P t1 t2 =
      .ok (m_db.filter (fun r => decide (r.page = P) && decide (t1 ≤ r.time)
        && decide (r.time ≤ t2))) := by
  obtain ⟨hlu, hun, hlow, hmid, hhigh⟩ := range_of_spec m_db P hs
  have hne : ∀ q : String, strLtb q.data P.data = true → ¬ q = P := by
    intro q hlt heq
    rw [heq] at hlt
    exact absurd hlt (by simp [strLtb_irrefl])
  have hne' : ∀ q : String, strLtb P.data q.data = true → ¬ q = P := by
    intro q hlt heq
    rw [heq] at hlt
    exact absurd hlt (by simp [strLtb_irrefl])
  have h1 : List.filter (fun r => decide (r.page = P) && decide (t1 ≤ r.time)
      && decide (r.time ≤ t2)) (m_db.take (baseline_db.range_of m_db P).1) = [] := by
    rw [List.filter_eq_nil_iff]
    intro a ha
    rw [List.mem_iff_getElem] at ha
    obtain ⟨i, h, rfl⟩ := ha
    have hlen := h
    simp only [List.length_take] at hlen
    rw [List.getElem_take]
    simp [hne _ (hlow i (by omega) (by omega))]
  have h2 : List.filter (fun r => decide (r.page = P) && decide (t1 ≤ r.time)
      && decide (r.time ≤ t2)) (m_db.drop (baseline_db.range_of m_db P).2) = [] := by
    rw [List.filter_eq_nil_iff]
    intro a ha
    rw [List.mem_iff_getElem] at ha
    obtain ⟨i, h, rfl⟩ := ha
    have hlen := h
    simp only [List.length_drop] at hlen
    rw [List.getElem_drop]
    simp [hne' _ (hhigh ((baseline_db.range_of m_db P).2 + i) (by omega) (by omega))]
  have h3 : List.filter (fun r => decide (r.page = P) && decide (t1 ≤ r.time)
        && decide (r.time ≤ t2))
        ((m_db.drop (baseline_db.range_of m_db P).1).take
          ((baseline_db.range_of m_db P).2 - (baseline_db.range_of m_db P).1)) =
      List.filter (fun x => decide (t1 ≤ x.time) && decide (x.time ≤ t2))
        ((m_db.drop (baseline_db.range_of m_db P).1).take
          ((baseline_db.range_of m_db P).2 - (baseline_db.range_of m_db P).1)) := by
    apply List.filter_congr
    intro x hx
    rw [List.mem_iff_getElem] at hx
    obtain ⟨i, h, rfl⟩ := hx
    have hlen := h
    simp only [List.length_take, List.length_drop] at hlen
    rw [List.getElem_take, List.getElem_drop]
    have hpage := hmid ((baseline_db.range_of m_db P).1 + i) (by omega) (by omega)
      (by omega)
    simp [hpage]
  have hsplit2 : m_db.drop (baseline_db.range_of m_db P).1 =
      ((m_db.drop (baseline_db.range_of m_db P).1).take
        ((baseline_db.range_of m_db P).2 - (baseline_db.range_of m_db P).1)) ++
      m_db.drop (baseline_db.range_of m_db P).2 := by
    have hd := List.take_append_drop
      ((baseline_db.range_of m_db P).2 - (baseline_db.range_of m_db P).1)
      (m_db.drop (baseline_db.range_of m_db P).1)
    rw [List.drop_drop] at hd
    have harith : (baseline_db.range_of m_db P).1 +
        ((baseline_db.range_of m_db P).2 - (baseline_db.range_of m_db P).1) =
        (baseline_db.range_of m_db P).2 := by omega
    rw [harith] at hd
    exact hd.symm
  simp only [baseline_db.range]
  rw [if_pos h12]
  congr 1
  conv_rhs => rw [← List.take_append_drop (baseline_db.range_of m_db P).1 m_db]
  rw [List.filter_append, h1, List.nil_append]
  conv_rhs => rw [hsplit2]
  rw [List.filter_append, h2, List.append_nil]
  exact h3.symm

/-- A successful range query on a sorted store returns a sorted list (it is a
filter of a contiguous slice of the store). -/
theorem range_ok_sorted (m_db : List record) (P : String) (t1 t2 : Int)
    (rs : List record) (hs : sortedDb m_db)
    (hr : baseline_db.range m_db P t1 t2 = .ok rs) :
    List.Pairwise recordLe rs := by
  by_cases h12 : t1 ≤ t2
  · simp only [baseline_db.range] at hr
    rw [if_pos h12] at hr
    injection hr with hr
    rw [← hr]
    exact List.Pairwise.filter _
      (List.Pairwise.sublist ((List.take_sublist _ _).trans (List.drop_sublist _ _)) hs)
  · simp only [baseline_db.range] at hr
    rw [if_neg h12] at hr
    exact absurd hr (by simp)

/-- The executable sort is one outcome `std::sort`'s contract permits. -/
theorem sortRecords_conforms (l : List record) : cppSortPost l (sortRecords l) :=
  ⟨List.perm_insertionSort recordLe l, List.sorted_insertionSort recordLe l⟩

/-- A comparator-sorted permutation of a list whose keys are strictly
increasing is that list itself: permuting `(page, time)`-tied records is the
only freedom `std::sort`'s contract leaves. -/
theorem sorted_perm_eq_of_strict (l : List record) :
    ∀ l', l'.Perm l → List.Pairwise record.lt l → List.Pairwise recordLe l' →
      l' = l := by
  induction l with
  | nil =>
    intro l' hp _ _
    exact hp.eq_nil
  | cons a tl ih =>
    intro l' hp hstrict hle
    cases l' with
    | nil => exact absurd hp.symm.eq_nil (by simp)
    | cons b tl' =>
      by_cases hba : b = a
      · subst hba
        rw [ih tl' hp.cons_inv (List.pairwise_cons.mp hstrict).2
          (List.pairwise_cons.mp hle).2]
      · exfalso
        have hbmem : b ∈ a :: tl := hp.mem_iff.mp (List.mem_cons_self b tl')
        have hbtl : b ∈ tl := by
          rcases List.mem_cons.mp hbmem with h | h
          · exact absurd h hba
          · exact h
        have hab : record.lt a b := (List.pairwise_cons.mp hstrict).1 b hbtl
        have hamem : a ∈ b :: tl' := hp.symm.mem_iff.mp (List.mem_cons_self a tl)
        have hatl : a ∈ tl' := by
          rcases List.mem_cons.mp hamem with h | h
          · exact absurd h.symm hba
          · exact h
        exact (List.pairwise_cons.mp hle).1 a hatl hab

theorem keyLe_antisymm {p q : String × Int} (h1 : keyLe p q) (h2 : keyLe q p) :
    p = q := by
  rcases h1 with h1 | ⟨h1p, h1t⟩
  · rcases h2 with h2 | ⟨h2p, h2t⟩
    · exact absurd h2 (by simp [strLtb_asymm h1])
    · rw [h2p] at h1
      exact absurd h1 (by simp [strLtb_irrefl])
  · rcases h2 with h2 | ⟨h2p, h2t⟩
    · rw [h1p] at h2
      exact absurd h2 (by simp [strLtb_irrefl])
    · exact Prod.ext h1p (le_antisymm h1t h2t)

instance : IsAntisymm (String × Int) keyLe := ⟨fun _ _ => keyLe_antisymm⟩

theorem pairwise_keyLe_map {l : List record} (h : List.Pairwise recordLe l) :
    List.Pairwise keyLe (l.map record.key) := by
  rw [List.pairwise_map]
  exact List.Pairwise.imp (fun hab => (recordLe_iff _ _).mp hab) h

/-- Any conforming re-sort of an already sorted list preserves the sequence
of `(page, time)` keys: only counters of tied records may move. -/
theorem cppSortPost_keys (rs sorted : List record)
    (hrs : List.Pairwise recordLe rs) (hpost : cppSortPost rs sorted) :
    sorted.map record.key = rs.map record.key :=
  List.eq_of_perm_of_sorted (hpost.1.map record.key)
    (pairwise_keyLe_map hpost.2) (pairwise_keyLe_map hrs)

/-! ### Claim theorems -/

/-- C1: on a store satisfying the sortedness invariant (established by
`build_index` and assumed of `load`ed data, see C3), for every page `P` and
times `t1 ≤ t2`, the range query succeeds and returns exactly the stored
records with page `P` and time in `[t1, t2]`, in stored `(page, time)` order
with no duplicates or omissions (it literally equals the order-preserving
filter of the store); moreover the result is sorted, and when no stored
record has page `P` the result is the empty sequence with no error. -/
theorem range_query_correct (m_db : List record) (P : String) (t1 t2 : Int)
    (hs : sortedDb m_db) (h12 : t1 ≤ t2) :
    baseline_db.range m_db P t1 t2 =
      .ok (m_db.filter (fun r => decide (r.page = P) && decide (t1 ≤ r.time)
        && decide (r.time ≤ t2))) ∧
    (∀ rs, baseline_db.range m_db P t1 t2 = .ok rs → List.Pairwise recordLe rs) ∧
    ((∀ r ∈ m_db, r.page ≠ P) → baseline_db.range m_db P t1 t2 = .ok []) := by
  refine ⟨range_eq_filter m_db P t1 t2 hs h12,
    fun rs hr => range_ok_sorted m_db P t1 t2 rs hs hr, ?_⟩
  intro hnone
  rw [range_eq_filter m_db P t1 t2 hs h12]
  congr 1
  rw [List.filter_eq_nil_iff]
  intro a ha
  simp [hnone a ha]

/-- Witness for C1: the spec's concrete scenario, evaluated. -/
theorem range_query_correct_witness :
    baseline_db.range
      [⟨2016062622, "A", 5⟩, ⟨2016062623, "A", 10⟩, ⟨2016062623, "B", 99⟩]
      "A" 2016062600 2016062623 =
      .ok [⟨2016062622, "A", 5⟩, ⟨2016062623, "A", 10⟩] :=
  (range_query_correct
    [⟨2016062622, "A", 5⟩, ⟨2016062623, "A", 10⟩, ⟨2016062623, "B", 99⟩]
    "A" 2016062600 2016062623 (by decide) (by decide)).1.trans (by rfl)

/-- C6: a range query with `t1 > t2` fails with the malformed-interval
`std::invalid_argument` for every page and every store, returning no data;
the model is state-free for queries (`range` is `const` in the source), so
the store is unchanged. -/
theorem range_malformed_interval (m_db : List record) (P : String)
    (t1 t2 : Int) (h : t2 < t1) :
    baseline_db.range m_db P t1 t2 = .error Err.invalidInterval := by
  simp only [baseline_db.range]
  rw [if_neg (by omega : ¬ t1 ≤ t2)]

/-- Witness for C6: the spec's scenario 5. -/
theorem range_malformed_interval_witness :
    baseline_db.range [] "A" 2016062623 2016062600 = .error Err.invalidInterval :=
  range_malformed_interval [] "A" 2016062623 2016062600 (by decide)

/-- C2 counterexample: on a store holding two records tied on `(page, time)`
(equal page and time, different counters), reversing the tied pair satisfies
everything `std::sort` guarantees for the re-sort inside `top_k_range`, yet
the truncated output is not identical to the range result at `k = 2` and is
not a prefix of it at `k = 1`: the identical-sequence and prefix conjuncts
of the claim are not theorems of the program, only the length law is. -/
theorem top_k_range_tie_counterexample :
    baseline_db.range [⟨5, "A", 1⟩, ⟨5, "A", 2⟩] "A" 0 10 =
      .ok [⟨5, "A", 1⟩, ⟨5, "A", 2⟩] ∧
    cppSortPost [⟨5, "A", 1⟩, ⟨5, "A", 2⟩] [⟨5, "A", 2⟩, ⟨5, "A", 1⟩] ∧
    [(⟨5, "A", 2⟩ : record), ⟨5, "A", 1⟩].take 2 ≠ [⟨5, "A", 1⟩, ⟨5, "A", 2⟩] ∧
    ¬ [(⟨5, "A", 2⟩ : record), ⟨5, "A", 1⟩].take 1 <+:
      [(⟨5, "A", 1⟩ : record), ⟨5, "A", 2⟩] := by
  refine ⟨by rfl, ⟨List.Perm.swap _ _ _, by decide⟩, by decide, ?_⟩
  intro h
  rw [List.prefix_iff_eq_take] at h
  exact absurd h (by decide)

/-- C2 (amended): for every store, `top_k_range` returns exactly
`min k _` elements — for the embedded executable sort and for every output
`std::sort`'s contract permits. Whenever the range result has no two records
tied on `(page, time)`, every conforming re-sort is the identity, so the
result is then `range`'s result truncated to its first `k` elements:
identical to `range`'s when `k` is at least the range size, and a prefix of
it in order. With tied records, `std::sort` licenses reorderings that break
the identity and prefix laws (see the counterexample). -/
theorem top_k_range_truncation (m_db : List record) (P : String) (t1 t2 : Int)
    (k : Nat) (rs : List record)
    (hr : baseline_db.range m_db P t1 t2 = .ok rs) :
    (∀ sorted, cppSortPost rs sorted →
      (sorted.take k).length = min k rs.length) ∧
    (∀ res, baseline_db.top_k_range m_db P t1 t2 k = .ok res →
      res.length = min k rs.length) ∧
    (List.Pairwise record.lt rs → ∀ sorted, cppSortPost rs sorted →
      sorted = rs ∧ (rs.length ≤ k → sorted.take k = rs) ∧
        sorted.take k <+: rs) := by
  refine ⟨?_, ?_, ?_⟩
  · intro sorted hpost
    rw [List.length_take, hpost.1.length_eq]
  · intro res hres
    simp only [baseline_db.top_k_range, hr] at hres
    injection hres with hres
    rw [← hres, List.length_take, (sortRecords_conforms rs).1.length_eq]
  · intro hstrict sorted hpost
    have heq : sorted = rs :=
      sorted_perm_eq_of_strict rs sorted hpost.1 hstrict hpost.2
    subst heq
    refine ⟨rfl, fun hk => List.take_of_length_le hk, ?_⟩
    exact List.take_prefix k sorted

/-- Witness for C2: the spec's scenario (`k = 1` on page A), whose range
result has strictly increasing keys, evaluated through all three laws. -/
theorem top_k_range_truncation_witness :
    (([(⟨2016062622, "A", 5⟩ : record), ⟨2016062623, "A", 10⟩].take 1).length =
      min 1 [(⟨2016062622, "A", 5⟩ : record), ⟨2016062623, "A", 10⟩].length) ∧
    ([(⟨2016062622, "A", 5⟩ : record)] : List record).length =
      min 1 [(⟨2016062622, "A", 5⟩ : record), ⟨2016062623, "A", 10⟩].length ∧
    [(⟨2016062622, "A", 5⟩ : record), ⟨2016062623, "A", 10⟩].take 1 <+:
      [(⟨2016062622, "A", 5⟩ : record), ⟨2016062623, "A", 10⟩] := by
  have h := top_k_range_truncation
    [⟨2016062622, "A", 5⟩, ⟨2016062623, "A", 10⟩, ⟨2016062623, "B", 99⟩]
    "A" 2016062600 2016062623 1 [⟨2016062622, "A", 5⟩, ⟨2016062623, "A", 10⟩]
    (by rfl)
  exact ⟨h.1 _ ⟨List.Perm.refl _, by decide⟩,
    h.2.1 [⟨2016062622, "A", 5⟩] (by rfl),
    (h.2.2 (by decide) _ ⟨List.Perm.refl _, by decide⟩).2.2⟩

/-- C8 counterexample: two records with equal `(page, time)` and different
counters; swapping them satisfies `std::sort`'s entire contract for the
re-sort inside `top_k_range`, yet the tied records do not retain their
original relative order — the claimed tie stability is not guaranteed by
the program. -/
theorem top_k_tie_order_not_guaranteed :
    baseline_db.range [⟨5, "A", 1⟩, ⟨5, "A", 2⟩] "A" 0 10 =
      .ok [⟨5, "A", 1⟩, ⟨5, "A", 2⟩] ∧
    cppSortPost [⟨5, "A", 1⟩, ⟨5, "A", 2⟩] [⟨5, "A", 2⟩, ⟨5, "A", 1⟩] ∧
    [(⟨5, "A", 2⟩ : record), ⟨5, "A", 1⟩] ≠ [⟨5, "A", 1⟩, ⟨5, "A", 2⟩] :=
  ⟨by rfl, ⟨List.Perm.swap _ _ _, by decide⟩, by decide⟩

/-- C8 (amended): truncation is governed by `(page, time)` keys alone — for
every re-sort output `std::sort` permits, the key sequence equals that of
the already sorted range result, so truncation drops exactly the
latest-keyed records; and when no two records of the range result share a
key, every conforming re-sort is the identity and the kept elements are the
`k` earliest-in-order records in their original order. Among records tied
on `(page, time)` the program guarantees no relative order (`std::sort` is
not stable; see the counterexample). -/
theorem top_k_range_stable (m_db : List record) (P : String) (t1 t2 : Int)
    (k : Nat) (rs : List record) (hs : sortedDb m_db)
    (hr : baseline_db.range m_db P t1 t2 = .ok rs) :
    (∀ sorted, cppSortPost rs sorted →
      sorted.map record.key = rs.map record.key ∧
      (List.Pairwise record.lt rs → sorted = rs)) ∧
    (∀ res, baseline_db.top_k_range m_db P t1 t2 k = .ok res →
      res.map record.key = (rs.take k).map record.key ∧
      (List.Pairwise record.lt rs → res = rs.take k ∧ res <+: rs)) := by
  have hrs : List.Pairwise recordLe rs := range_ok_sorted m_db P t1 t2 rs hs hr
  constructor
  · intro sorted hpost
    exact ⟨cppSortPost_keys rs sorted hrs hpost,
      fun hstrict => sorted_perm_eq_of_strict rs sorted hpost.1 hstrict hpost.2⟩
  · intro res hres
    simp only [baseline_db.top_k_range, hr] at hres
    injection hres with hres
    have hkeys : (sortRecords rs).map record.key = rs.map record.key :=
      cppSortPost_keys rs _ hrs (sortRecords_conforms rs)
    constructor
    · rw [← hres]
      simp only [List.map_take]
      rw [hkeys]
    · intro hstrict
      have heq : sortRecords rs = rs :=
        sorted_perm_eq_of_strict rs _ (sortRecords_conforms rs).1 hstrict
          (sortRecords_conforms rs).2
      rw [← hres, heq]
      refine ⟨rfl, ?_⟩
      exact List.take_prefix k rs

/-- Witness for C8: a conforming reorder of a tied pair keeps the key
sequence, and the embedded top-k result has the range result's keys. -/
theorem top_k_range_stable_witness :
    ([(⟨5, "A", 2⟩ : record), ⟨5, "A", 1⟩].map record.key =
      [(⟨5, "A", 1⟩ : record), ⟨5, "A", 2⟩].map record.key) ∧
    ([(⟨5, "A", 1⟩ : record), ⟨5, "A", 2⟩].map record.key =
      ([(⟨5, "A", 1⟩ : record), ⟨5, "A", 2⟩].take 2).map record.key) := by
  have h := top_k_range_stable [⟨5, "A", 1⟩, ⟨5, "A", 2⟩] "A" 0 10 2
    [⟨5, "A", 1⟩, ⟨5, "A", 2⟩] (by decide) (by rfl)
  exact ⟨(h.1 [⟨5, "A", 2⟩, ⟨5, "A", 1⟩] ⟨List.Perm.swap _ _ _, by decide⟩).1,
    (h.2 [⟨5, "A", 1⟩, ⟨5, "A", 2⟩] (by rfl)).1⟩

/-! ### Serialization, load and build -/

theorem deserializeRecords_append (m_db : List record) (rest : List baseline_db.Token) :
    baseline_db.deserializeRecords m_db.length
      ((m_db.map baseline_db.serializeRecord).flatten ++ rest) = some (m_db, rest) := by
  induction m_db with
  | nil => simp [baseline_db.deserializeRecords]
  | cons r tl ih =>
    simp only [List.map_cons, List.flatten_cons, List.length_cons,
      baseline_db.serializeRecord, List.cons_append, List.append_assoc,
      List.nil_append]
    simp only [baseline_db.deserializeRecords, ih]

/-- `load` after `save_as` restores exactly the saved collection. -/
theorem load_save_id (m_db : List record) :
    baseline_db.load (baseline_db.save_as m_db) = some m_db := by
  simp only [baseline_db.save_as, baseline_db.load]
  have h := deserializeRecords_append m_db []
  rw [List.append_nil] at h
  rw [h]

/-- C7: save followed by load is the identity on the store's record
collection (same field values in the same order), hence every range and
top-k query on the reloaded store agrees with the original. -/
theorem save_load_roundtrip (m_db : List record) :
    baseline_db.load (baseline_db.save_as m_db) = some m_db ∧
    (∀ (P : String) (t1 t2 : Int),
      (baseline_db.load (baseline_db.save_as m_db)).map
        (fun db' => baseline_db.range db' P t1 t2) =
      some (baseline_db.range m_db P t1 t2)) ∧
    (∀ (P : String) (t1 t2 : Int) (k : Nat),
      (baseline_db.load (baseline_db.save_as m_db)).map
        (fun db' => baseline_db.top_k_range db' P t1 t2 k) =
      some (baseline_db.top_k_range m_db P t1 t2 k)) := by
  refine ⟨load_save_id m_db, ?_, ?_⟩
  · intro P t1 t2
    rw [load_save_id m_db]
    rfl
  · intro P t1 t2 k
    rw [load_save_id m_db]
    rfl

/-- C3 counterexample: an archive encoding an unsorted collection loads
successfully (load performs no sortedness validation), so "after load
completes the stored collection is non-decreasing" fails. -/
theorem load_unsorted_counterexample :
    baseline_db.load (baseline_db.save_as [⟨0, "B", 0⟩, ⟨0, "A", 0⟩]) =
      some [⟨0, "B", 0⟩, ⟨0, "A", 0⟩] ∧
    ¬ sortedDb [⟨0, "B", 0⟩, ⟨0, "A", 0⟩] :=
  ⟨by rfl, by decide⟩

/-- C3 (amended): every successful `build_index` leaves the collection
non-decreasing under the `(page, time)` order, and `load` of an archive
produced by `save_as` of a sorted collection yields a sorted collection;
`load` of other archives is trusted, not checked. -/
theorem sortedness_after_build_or_trusted_load :
    (∀ (m_db : List record) (lines : List String) (db' : List record),
      baseline_db.build_index m_db lines = (db', none) → sortedDb db') ∧
    (∀ m_db : List record, sortedDb m_db →
      ∀ db', baseline_db.load (baseline_db.save_as m_db) = some db' → sortedDb db') := by
  constructor
  · intro m_db lines db' hb
    simp only [baseline_db.build_index] at hb
    rcases hbl : baseline_db.build_loop m_db lines with ⟨db, e⟩
    rw [hbl] at hb
    cases e with
    | none =>
      simp only [Prod.mk.injEq] at hb
      rw [← hb.1]
      exact List.sorted_insertionSort recordLe db
    | some e => simp at hb
  · intro m_db hs db' hl
    rw [load_save_id m_db] at hl
    injection hl with hl
    rw [← hl]
    exact hs

/-- Witness for the amended C3: a successful concrete build yields a sorted
store; a reloaded sorted store is sorted. -/
theorem sortedness_after_build_or_trusted_load_witness :
    sortedDb [⟨2016062622, "A", 5⟩, ⟨2016062623, "A", 10⟩] ∧
    sortedDb [⟨2016062623, "B", 99⟩] :=
  ⟨sortedness_after_build_or_trusted_load.1 []
      ["20160626-23\tA\t10", "20160626-22\tA\t5"]
      [⟨2016062622, "A", 5⟩, ⟨2016062623, "A", 10⟩] (by decide),
   sortedness_after_build_or_trusted_load.2 [⟨2016062623, "B", 99⟩] (by decide)
      [⟨2016062623, "B", 99⟩] (by rfl)⟩

theorem build_loop_first_error (good : List String) :
    ∀ (m_db : List record) (rs : List record) (bad : String)
      (rest : List String) (e : Err),
      parse_lines good = .ok rs →
      record_from_line bad = .error e →
      baseline_db.build_loop m_db (good ++ bad :: rest) = (m_db ++ rs, some e) := by
  induction good with
  | nil =>
    intro m_db rs bad rest e hg hb
    simp only [parse_lines] at hg
    injection hg with hg
    rw [← hg, List.append_nil, List.nil_append]
    simp [baseline_db.build_loop, hb]
  | cons l ls ih =>
    intro m_db rs bad rest e hg hb
    simp only [parse_lines] at hg
    rcases hl : record_from_line l with e' | r
    · rw [hl] at hg
      exact absurd hg (by simp)
    · rw [hl] at hg
      rcases hps : parse_lines ls with e' | rs'
      · rw [hps] at hg
        exact absurd hg (by simp)
      · rw [hps] at hg
        injection hg with hg
        rw [← hg]
        simp only [List.cons_append, baseline_db.build_loop, hl]
        exact (ih (m_db ++ [r]) rs' bad rest e hps hb).trans
          (by rw [List.append_assoc]; rfl)

/-- C4 counterexample: a build over a good line followed by a bad line fails
with the first `ParseError`, but the record parsed before the failure stays
appended to the collection — the store is not left as it was before the
failed build (it was empty). -/
theorem build_not_atomic_counterexample :
    baseline_db.build_index [] ["20160626-23\tA\t10", "bad"] =
      ([⟨2016062623, "A", 10⟩], some Err.parseError) ∧
    ([⟨2016062623, "A", 10⟩] : List record) ≠ [] :=
  ⟨by decide, by decide⟩

/-- C4 (amended): when some line fails to parse, `build_index` fails with the
`ParseError` of the first unparseable line and commits no sorted index, but
the records of the parseable prefix remain appended (unsorted) to the
member vector — the prior state is not restored. -/
theorem build_index_first_error (m_db : List record) (good : List String)
    (bad : String) (rest : List String) (rs : List record) (e : Err)
    (hg : parse_lines good = .ok rs)
    (hb : record_from_line bad = .error e) :
    baseline_db.build_index m_db (good ++ bad :: rest) = (m_db ++ rs, some e) := by
  simp only [baseline_db.build_index]
  rw [build_loop_first_error good m_db rs bad rest e hg hb]

/-- Witness for the amended C4. -/
theorem build_index_first_error_witness :
    baseline_db.build_index [] (["20160626-23\tA\t10"] ++ "bad" :: []) =
      ([] ++ [⟨2016062623, "A", 10⟩], some Err.parseError) :=
  build_index_first_error [] ["20160626-23\tA\t10"] "bad" []
    [⟨2016062623, "A", 10⟩] Err.parseError (by rfl) (by rfl)

/-! ### String-boundary overloads and debug print -/

/-- C9: the string-boundary overloads equal the time-point overloads composed
with `record::string_to_time_point` (the single default-format parsing
primitive): when both boundary strings parse the calls coincide, and when
either fails to match `YYYYMMDD-HH` the primitive's `ParseError`
propagates. -/
theorem string_overloads_delegate (m_db : List record) (P s1 s2 : String)
    (k : Nat) :
    (∀ t1 t2 : Int, string_to_time_point s1 = .ok t1 →
      string_to_time_point s2 = .ok t2 →
      baseline_db.range_str m_db P s1 s2 = baseline_db.range m_db P t1 t2 ∧
      baseline_db.top_k_range_str m_db P s1 s2 k =
        baseline_db.top_k_range m_db P t1 t2 k) ∧
    (∀ e, string_to_time_point s1 = .error e →
      baseline_db.range_str m_db P s1 s2 = .error e ∧
      baseline_db.top_k_range_str m_db P s1 s2 k = .error e) ∧
    (∀ (t1 : Int) (e : Err), string_to_time_point s1 = .ok t1 →
      string_to_time_point s2 = .error e →
      baseline_db.range_str m_db P s1 s2 = .error e ∧
      baseline_db.top_k_range_str m_db P s1 s2 k = .error e) := by
  refine ⟨?_, ?_, ?_⟩
  · intro t1 t2 h1 h2
    constructor
    · simp only [baseline_db.range_str, h1, h2]
    · simp only [baseline_db.top_k_range_str, h1, h2]
  · intro e h1
    constructor
    · simp only [baseline_db.range_str, h1]
    · simp only [baseline_db.top_k_range_str, h1]
  · intro t1 e h1 h2
    constructor
    · simp only [baseline_db.range_str, h1, h2]
    · simp only [baseline_db.top_k_range_str, h1, h2]

/-- Witness for C9: a parsing pair of boundary strings delegates to the
time-point overload, and an unparseable one surfaces the `ParseError`. -/
theorem string_overloads_delegate_witness :
    (baseline_db.range_str [] "A" "20160626-00" "20160626-23" =
      baseline_db.range [] "A" 2016062600 2016062623 ∧
     baseline_db.top_k_range_str [] "A" "20160626-00" "20160626-23" 1 =
      baseline_db.top_k_range [] "A" 2016062600 2016062623 1) ∧
    baseline_db.range_str [] "A" "garbage" "20160626-23" =
      .error Err.parseError :=
  ⟨(string_overloads_delegate [] "A" "20160626-00" "20160626-23" 1).1
      2016062600 2016062623 (by rfl) (by rfl),
   ((string_overloads_delegate [] "A" "garbage" "20160626-23" 1).2.1
      Err.parseError (by rfl)).1⟩

/-- C10: the debug print of the `i`-th record performs an unchecked
`m_db[i]` access; in the embedding the access is `Option`-valued, is
defined (`isSome`) exactly under the precondition `i < size`, and is out of
bounds (`none`) for every `i ≥ size` — a precondition the public interface
does not enforce. -/
theorem print_unchecked_bounds (m_db : List record) (i : Nat) :
    (i < m_db.length → (baseline_db.print m_db i).isSome = true) ∧
    (m_db.length ≤ i → baseline_db.print m_db i = none) := by
  constructor
  · intro h
    simp only [baseline_db.print]
    rw [List.getElem?_eq_getElem h]
    rfl
  · intro h
    simp only [baseline_db.print]
    rw [List.getElem?_eq_none h]

/-- Witness for C10: a one-record store prints index 0 and has no record 1. -/
theorem print_unchecked_bounds_witness :
    (baseline_db.print [⟨2016062623, "A", 10⟩] 0).isSome = true ∧
    baseline_db.print [⟨2016062623, "A", 10⟩] 1 = none :=
  ⟨(print_unchecked_bounds [⟨2016062623, "A", 10⟩] 0).1 (by decide),
   (print_unchecked_bounds [⟨2016062623, "A", 10⟩] 1).2 (by decide)⟩

/-! ### Line parsing: the counter field -/

theorem strFindAux_append (c : Char) (a b : List Char) (h : c ∉ a) :
    strFindAux c (a ++ c :: b) = some a.length := by
  induction a with
  | nil => simp [strFindAux]
  | cons x xs ih =>
    have hx : ¬ x = c := by
      intro he
      exact h (by rw [he]; exact List.mem_cons_self c xs)
    simp only [List.cons_append, strFindAux, if_neg hx]
    exact (congrArg (Option.map fun n => n + 1)
      (ih (fun hm => h (List.mem_cons_of_mem x hm)))).trans rfl

theorem add64_small {a b : Nat} (h : a + b < W) : add64 a b = a + b :=
  Nat.mod_eq_of_lt h

theorem sub64_small {a b : Nat} (hba : b ≤ a) (ha : a < W) : sub64 a b = a - b := by
  unfold sub64
  rw [Nat.mod_eq_of_lt (by omega : b < W)]
  rw [(by omega : a + W - b = W + (a - b)), Nat.add_mod_left]
  exact Nat.mod_eq_of_lt (by omega)

/-- C5 counterexample: a line whose counter field denotes the negative number
`-5` is accepted, not rejected: `std::stoi` parses the sign, and the `int`
value wraps to `2^64 - 5` on conversion to the `size_t` member. -/
theorem negative_counter_accepted :
    record_from_line "20160626-23\tA\t-5" =
      .ok ⟨2016062623, "A", 18446744073709551611⟩ := by rfl

/-- C5 (amended): parsing a well-formed three-field line fails with the
timestamp's `ParseError` when the stamp is malformed, and with `std::stoi`'s
error when the counter field has no leading integer; but a counter field
denoting a negative integer (in `int` range) is accepted, its value reduced
modulo `2^64` by the `int`-to-`size_t` conversion, and characters after the
leading integer are ignored. -/
theorem record_parse_counter_wraps (ts page cnt : List Char) (t : Int)
    (hts : '\t' ∉ ts) (hpage : '\t' ∉ page)
    (hlen : ts.length + page.length + cnt.length + 2 < W)
    (htime : string_to_time_point (String.mk ts) = .ok t) :
    record_from_line (String.mk (ts ++ '\t' :: (page ++ '\t' :: cnt))) =
      (stoi cnt).map
        (fun v => { time := t, page := String.mk page,
                    counter := (v % (W : Int)).toNat }) := by
  have hnpos : npos + 1 = W := by decide
  have hdata : (String.mk (ts ++ '\t' :: (page ++ '\t' :: cnt))).data =
      ts ++ '\t' :: (page ++ '\t' :: cnt) := rfl
  have hlenL : (ts ++ '\t' :: (page ++ '\t' :: cnt)).length =
      ts.length + page.length + cnt.length + 2 := by
    simp only [List.length_append, List.length_cons]
    omega
  have hn1 : strFindFrom (ts ++ '\t' :: (page ++ '\t' :: cnt)) '\t' 0 =
      ts.length := by
    unfold strFindFrom
    rw [List.drop_zero, strFindAux_append '\t' ts _ hts]
    simp
  have hadd1 : add64 ts.length 1 = ts.length + 1 := add64_small (by omega)
  have hsplit1 : ts ++ '\t' :: (page ++ '\t' :: cnt) =
      (ts ++ ['\t']) ++ (page ++ '\t' :: cnt) := by simp
  have hdrop1 : (ts ++ '\t' :: (page ++ '\t' :: cnt)).drop (ts.length + 1) =
      page ++ '\t' :: cnt := by
    rw [hsplit1, (by simp : ts.length + 1 = (ts ++ ['\t']).length)]
    exact List.drop_left _ _
  have hn2 : strFindFrom (ts ++ '\t' :: (page ++ '\t' :: cnt)) '\t'
      (ts.length + 1) = ts.length + 1 + page.length := by
    unfold strFindFrom
    rw [hdrop1, strFindAux_append '\t' page cnt hpage]
  have hsub1 : sub64 (ts.length + 1 + page.length) ts.length = page.length + 1 := by
    rw [sub64_small (by omega) (by omega)]
    omega
  have hsub2 : sub64 (page.length + 1) 1 = page.length := by
    rw [sub64_small (by omega) (by omega)]
    omega
  have hadd2 : add64 (ts.length + 1 + page.length) 1 =
      ts.length + 1 + page.length + 1 := add64_small (by omega)
  have hsubstr0 : substr (ts ++ '\t' :: (page ++ '\t' :: cnt)) 0 ts.length =
      .ok ts := by
    unfold substr
    split
    · rename_i hcond
      exact absurd hcond (by omega)
    · rw [List.drop_zero, List.take_left]
  have hsubstr_page : substr (ts ++ '\t' :: (page ++ '\t' :: cnt))
      (ts.length + 1) page.length = .ok page := by
    unfold substr
    split
    · rename_i hcond
      exact absurd hcond (by omega)
    · rw [hdrop1, List.take_left]
  have hsplit2 : ts ++ '\t' :: (page ++ '\t' :: cnt) =
      (ts ++ '\t' :: (page ++ ['\t'])) ++ cnt := by simp
  have hlen2 : (ts ++ '\t' :: (page ++ ['\t'])).length =
      ts.length + 1 + page.length + 1 := by
    simp only [List.length_append, List.length_cons, List.length_nil]
    omega
  have hdrop2 : (ts ++ '\t' :: (page ++ '\t' :: cnt)).drop
      (ts.length + 1 + page.length + 1) = cnt := by
    rw [hsplit2, ← hlen2]
    exact List.drop_left _ _
  have hsubstr_cnt : substr (ts ++ '\t' :: (page ++ '\t' :: cnt))
      (ts.length + 1 + page.length + 1) npos = .ok cnt := by
    unfold substr
    split
    · rename_i hcond
      exact absurd hcond (by omega)
    · rw [hdrop2, List.take_of_length_le (by omega : cnt.length ≤ npos)]
  simp only [record_from_line, hdata, hn1, hadd1, hn2, hsub1, hsub2, hadd2,
    hsubstr0, htime, hsubstr_page, hsubstr_cnt]
  cases hstoi : stoi cnt with
  | error e => rfl
  | ok v => rfl

/-- Witness for the amended C5: the `-5` line, decomposed into its fields. -/
theorem record_parse_counter_wraps_witness :
    record_from_line (String.mk
      (['2', '0', '1', '6', '0', '6', '2', '6', '-', '2', '3'] ++ '\t' ::
        (['A'] ++ '\t' :: ['-', '5']))) =
      (stoi ['-', '5']).map
        (fun v => { time := 2016062623, page := String.mk ['A'],
                    counter := (v % (W : Int)).toNat }) :=
  record_parse_counter_wraps
    ['2', '0', '1', '6', '0', '6', '2', '6', '-', '2', '3'] ['A'] ['-', '5']
    2016062623 (by decide) (by decide) (by decide) (by rfl)

end Baseline
